import Mathlib

/-!
Verification development for the openrouter-proxy repository.

The Python modules `utils.py`, `key_manager.py` and `routes.py` are shallowly
embedded below.  JSON documents are modelled by the inductive type `JVal`
(numbers are modelled as integers; the bodies relevant here carry only
integers and strings), Python dictionaries by association lists (insertion
order preserved, updates in place), timestamps by integers counting
milliseconds since the epoch, and Python exceptions by `Except PyErr`.
Operations whose exceptions the source code catches are collapsed to their
caught results; operations whose exceptions escape are kept as `.error`.
-/

namespace ORProxy

/-- A parsed JSON document.  Numbers are modelled as integers, which covers
every body the proxy inspects; objects keep their fields in insertion order. -/
inductive JVal where
  | jnull : JVal
  | jbool : Bool → JVal
  | jint : Int → JVal
  | jstr : String → JVal
  | jarr : List JVal → JVal
  | jobj : List (String × JVal) → JVal
deriving Repr

mutual

/-- Python `==` on JSON-decoded values.  The embedded code only ever compares
against string constants, so the structural (order-sensitive) treatment of
objects is never exercised on object operands. -/
def beqJ : JVal → JVal → Bool
  | .jnull, .jnull => true
  | .jbool a, .jbool b => a == b
  | .jint a, .jint b => a == b
  | .jstr a, .jstr b => a == b
  | .jarr xs, .jarr ys => beqJList xs ys
  | .jobj fs, .jobj gs => beqJFields fs gs
  | _, _ => false

/-- Elementwise `beqJ` on lists. -/
def beqJList : List JVal → List JVal → Bool
  | [], [] => true
  | x :: xs, y :: ys => beqJ x y && beqJList xs ys
  | _, _ => false

/-- Elementwise `beqJ` on object fields. -/
def beqJFields : List (String × JVal) → List (String × JVal) → Bool
  | [], [] => true
  | (k1, v1) :: fs, (k2, v2) :: gs => k1 == k2 && beqJ v1 v2 && beqJFields fs gs
  | _, _ => false

end

/-- Python exceptions that the embedded code can raise or catch. -/
inductive PyErr where
  | typeError
  | keyError
  | attributeError
deriving DecidableEq, Repr

/-- Characters Python treats as blank when splitting lines / stripping. -/
def isWsChar (c : Char) : Bool :=
  c = ' ' ∨ c = '\t' ∨ c = '\n' ∨ c = '\r'

/-- Drop leading whitespace characters. -/
def skipWs : List Char → List Char
  | [] => []
  | c :: rest => if isWsChar c then skipWs rest else c :: rest

/-- `str.strip()` on a character list. -/
def stripWsChars (l : List Char) : List Char :=
  ((skipWs l).reverse |> skipWs).reverse

/-- Whether `p` occurs as a contiguous run inside `s` (Python `p in s`). -/
def subListChars (p : List Char) : List Char → Bool
  | [] => p = []
  | c :: rest => (c :: rest).take p.length = p ∨ subListChars p rest

/-- Python substring test `needle in hay` on strings. -/
def hasSub (needle hay : String) : Bool :=
  subListChars needle.data hay.data

/-- Python `s.startswith(p)`. -/
def strStarts (p s : String) : Bool :=
  s.data.take p.data.length = p.data

/-- Python `s[n:]` (drop the first `n` characters). -/
def strDropChars (n : Nat) (s : String) : String :=
  ⟨s.data.drop n⟩

/-- Lowercase a string character-wise (for case-insensitive header lookup). -/
def lowerStr (s : String) : String :=
  ⟨s.data.map Char.toLower⟩

/-- `str.splitlines()`: split on `\n`, `\r\n` and `\r`; no trailing empty
line for input ending in a newline. -/
def splitLinesChars : List Char → List Char → List (List Char)
  | [], acc => if acc = [] then [] else [acc.reverse]
  | '\r' :: '\n' :: rest, acc => acc.reverse :: splitLinesChars rest []
  | '\n' :: rest, acc => acc.reverse :: splitLinesChars rest []
  | '\r' :: rest, acc => acc.reverse :: splitLinesChars rest []
  | c :: rest, acc => splitLinesChars rest (c :: acc)

/-- `str.splitlines()` on strings. -/
def splitLinesPy (s : String) : List String :=
  (splitLinesChars s.data []).map fun l => ⟨l⟩

/-- Dictionary lookup.  `json.loads` keeps the last of duplicate keys, so the
rightmost binding wins. -/
def lookupLast (fs : List (String × JVal)) (k : String) : Option JVal :=
  (fs.reverse.find? fun p => p.1 = k).map (·.2)

/-- Digit-sequence value; accepts single underscores between digits exactly as
Python's `int()` does. -/
def digitsValAux : List Char → Nat → Bool → Option Nat
  | [], acc, seen => if seen then some acc else none
  | '_' :: c :: rest, acc, seen =>
    if seen ∧ c.isDigit then
      digitsValAux rest (acc * 10 + (c.toNat - '0'.toNat)) true
    else none
  | c :: rest, acc, _ =>
    if c.isDigit then digitsValAux rest (acc * 10 + (c.toNat - '0'.toNat)) true
    else none

/-- Python `int(s)` for a string argument: strip blanks, optional sign,
decimal digits (underscores allowed between digits); `none` models
`ValueError`. -/
def pyIntOfString (s : String) : Option Int :=
  match stripWsChars s.data with
  | '-' :: rest => (digitsValAux rest 0 false).map fun n => -(n : Int)
  | '+' :: rest => (digitsValAux rest 0 false).map fun n => (n : Int)
  | rest => (digitsValAux rest 0 false).map fun n => (n : Int)

/-- Python `int(v)` for a JSON-decoded value; `none` models the raised
`ValueError`/`TypeError` (which every caller in the source catches). -/
def pyIntOfJVal : JVal → Option Int
  | .jstr s => pyIntOfString s
  | .jint n => some n
  | .jbool b => some (if b then 1 else 0)
  | _ => none

/-- Python `needle in v` for a JSON-decoded value: key test on objects,
element test on arrays, substring test on strings, `TypeError` otherwise. -/
def pyContainsStr (needle : String) : JVal → Except PyErr Bool
  | .jobj fs => .ok (fs.any fun p => p.1 = needle)
  | .jarr xs => .ok (xs.any fun x => beqJ (.jstr needle) x)
  | .jstr s => .ok (hasSub needle s)
  | _ => .error .typeError

/-- Python `v[k]` for a string key: field lookup on objects (`KeyError` when
absent), `TypeError` on anything else. -/
def pyIndexStr (v : JVal) (k : String) : Except PyErr JVal :=
  match v with
  | .jobj fs =>
    match lookupLast fs k with
    | some x => .ok x
    | none => .error .keyError
  | _ => .error .typeError

/-- Value of a hexadecimal digit. -/
def hexVal (c : Char) : Option Nat :=
  if c.isDigit then some (c.toNat - '0'.toNat)
  else if 'a' ≤ c ∧ c ≤ 'f' then some (c.toNat - 'a'.toNat + 10)
  else if 'A' ≤ c ∧ c ≤ 'F' then some (c.toNat - 'A'.toNat + 10)
  else none

/-- Body of a JSON string literal (opening quote already consumed); handles
the standard escapes, including `\uXXXX`. -/
def parseStrBody : Nat → List Char → List Char → Option (String × List Char)
  | 0, _, _ => none
  | _ + 1, '\"' :: rest, acc => some (⟨acc.reverse⟩, rest)
  | f + 1, '\\' :: e :: rest, acc =>
    match e with
    | '\"' => parseStrBody f rest ('\"' :: acc)
    | '\\' => parseStrBody f rest ('\\' :: acc)
    | '/' => parseStrBody f rest ('/' :: acc)
    | 'n' => parseStrBody f rest ('\n' :: acc)
    | 't' => parseStrBody f rest ('\t' :: acc)
    | 'r' => parseStrBody f rest ('\r' :: acc)
    | 'b' => parseStrBody f rest (Char.ofNat 8 :: acc)
    | 'f' => parseStrBody f rest (Char.ofNat 12 :: acc)
    | 'u' =>
      match rest with
      | h1 :: h2 :: h3 :: h4 :: rest2 =>
        match hexVal h1, hexVal h2, hexVal h3, hexVal h4 with
        | some a, some b, some c, some d =>
          parseStrBody f rest2 (Char.ofNat (((a * 16 + b) * 16 + c) * 16 + d) :: acc)
        | _, _, _, _ => none
      | _ => none
    | _ => none
  | f + 1, c :: rest, acc => parseStrBody f rest (c :: acc)
  | _ + 1, [], _ => none

/-- An integer literal: optional minus sign and decimal digits.  Fractional or
exponent parts (floats) are outside the model and make the parse fail. -/
def parseNumLit (cs : List Char) : Option (JVal × List Char) :=
  let core : List Char → Option (Nat × List Char) := fun l =>
    let digs := l.takeWhile Char.isDigit
    let rest := l.dropWhile Char.isDigit
    if digs = [] then none
    else
      match rest with
      | '.' :: _ => none
      | 'e' :: _ => none
      | 'E' :: _ => none
      | _ => some (digs.foldl (fun a c => a * 10 + (c.toNat - '0'.toNat)) 0, rest)
  match cs with
  | '-' :: rest => (core rest).map fun (n, r) => (.jint (-(n : Int)), r)
  | _ => (core cs).map fun (n, r) => (.jint (n : Int), r)

mutual

/-- Fueled parser for a single JSON value, leading whitespace allowed. -/
def parseVal : Nat → List Char → Option (JVal × List Char)
  | 0, _ => none
  | f + 1, cs =>
    match skipWs cs with
    | 'n' :: 'u' :: 'l' :: 'l' :: rest => some (.jnull, rest)
    | 't' :: 'r' :: 'u' :: 'e' :: rest => some (.jbool true, rest)
    | 'f' :: 'a' :: 'l' :: 's' :: 'e' :: rest => some (.jbool false, rest)
    | '\"' :: rest => (parseStrBody (rest.length + 1) rest []).map fun (s, r) => (.jstr s, r)
    | '[' :: rest =>
      match skipWs rest with
      | ']' :: rest2 => some (.jarr [], rest2)
      | cs2 => (parseArrItems f cs2).map fun (xs, r) => (.jarr xs, r)
    | '{' :: rest =>
      match skipWs rest with
      | '}' :: rest2 => some (.jobj [], rest2)
      | cs2 => (parseObjItems f cs2).map fun (fs, r) => (.jobj fs, r)
    | cs2 => parseNumLit cs2

/-- Comma-separated values up to the closing bracket. -/
def parseArrItems : Nat → List Char → Option (List JVal × List Char)
  | 0, _ => none
  | f + 1, cs => do
    let (v, r1) ← parseVal f cs
    match skipWs r1 with
    | ',' :: r2 =>
      let (vs, r3) ← parseArrItems f r2
      some (v :: vs, r3)
    | ']' :: r2 => some ([v], r2)
    | _ => none

/-- Comma-separated `"key": value` pairs up to the closing brace. -/
def parseObjItems : Nat → List Char → Option (List (String × JVal) × List Char)
  | 0, _ => none
  | f + 1, cs => do
    match skipWs cs with
    | '\"' :: rest =>
      let (k, r1) ← parseStrBody (rest.length + 1) rest []
      match skipWs r1 with
      | ':' :: r2 => do
        let (v, r3) ← parseVal f r2
        match skipWs r3 with
        | ',' :: r4 =>
          let (fs, r5) ← parseObjItems f r4
          some ((k, v) :: fs, r5)
        | '}' :: r4 => some ([(k, v)], r4)
        | _ => none
      | _ => none
    | _ => none

end

/-- `json.loads` on a string: one JSON value surrounded only by whitespace;
`none` models `JSONDecodeError`. -/
def jsonParse (s : String) : Option JVal :=
  match parseVal (s.data.length + 1) s.data with
  | some (v, rest) => if skipWs rest = [] then some v else none
  | none => none

/-! ## `constants.py` -/

/-- The exact upstream message the detectors compare against
(`constants.RATE_LIMIT_ERROR_MESSAGE`). -/
def RATE_LIMIT_ERROR_MESSAGE : String := "Rate limit exceeded: free-models-per-day"

/-! ## `utils.py` -/

/-- Case-insensitive header lookup (httpx header maps are case-insensitive). -/
def headerGet (hdrs : List (String × String)) (name : String) : Option String :=
  (hdrs.find? fun p => lowerStr p.1 = lowerStr name).map (·.2)

/-- The `error.metadata.headers["X-RateLimit-Reset"]` extraction of
`check_rate_limit_error`.  The whole body check sits inside
`except Exception`, so any raised lookup error simply leaves `reset_time_ms`
unchanged; `none` covers both that and `int()` failing. -/
def metaResetBody (err : JVal) : Option Int :=
  match pyContainsStr "metadata" err with
  | .ok true =>
    match pyIndexStr err "metadata" with
    | .ok md =>
      match pyContainsStr "headers" md with
      | .ok true =>
        match pyIndexStr md "headers" with
        | .ok hs =>
          match pyContainsStr "X-RateLimit-Reset" hs with
          | .ok true =>
            match pyIndexStr hs "X-RateLimit-Reset" with
            | .ok v => pyIntOfJVal v
            | .error _ => none
          | _ => none
        | .error _ => none
      | _ => none
    | .error _ => none
  | _ => none

/-- The header branch of `check_rate_limit_error`: the value `reset_time_ms`
holds after the `X-RateLimit-Reset` response-header parse (`int()` failures
are caught and leave it `None`). -/
def headerResetOf (hdrs : List (String × String)) : Option Int :=
  match headerGet hdrs "X-RateLimit-Reset" with
  | some s => pyIntOfString s
  | none => none

/-- `utils.check_rate_limit_error`: headers are the response headers, `body`
is the result of `response.json()` (`none` when that call raises).  Every
exception in the body branch is caught by the function itself, so the
embedding is total; partial effects (the flag set before a later lookup
raises) are reproduced by the nesting below. -/
def check_rate_limit_error (hdrs : List (String × String)) (body : Option JVal) :
    Bool × Option Int :=
  let headerReset : Option Int := headerResetOf hdrs
  let ct := (headerGet hdrs "content-type").getD ""
  if hasSub "application/json" ct then
    match body with
    | none => (false, headerReset)
    | some data =>
      match pyContainsStr "error" data with
      | .ok true =>
        match pyIndexStr data "error" with
        | .ok err =>
          match pyContainsStr "message" err with
          | .ok true =>
            match pyIndexStr err "message" with
            | .ok m =>
              if beqJ m (.jstr RATE_LIMIT_ERROR_MESSAGE) then
                (true, match metaResetBody err with
                       | some r => some r
                       | none => headerReset)
              else (false, headerReset)
            | .error _ => (false, headerReset)
          | _ => (false, headerReset)
        | .error _ => (false, headerReset)
      | _ => (false, headerReset)
  else (false, headerReset)

/-- The reset-time extraction of `parse_rate_limit_from_sse`.  Here only the
`int()` conversion is guarded (`except (ValueError, TypeError)`); a failing
membership test or subscript propagates out of the function. -/
def sseMetaReset (err : JVal) : Except PyErr (Option Int) :=
  match pyContainsStr "metadata" err with
  | .error e => .error e
  | .ok false => .ok none
  | .ok true =>
    match pyIndexStr err "metadata" with
    | .error e => .error e
    | .ok md =>
      match pyContainsStr "headers" md with
      | .error e => .error e
      | .ok false => .ok none
      | .ok true =>
        match pyIndexStr md "headers" with
        | .error e => .error e
        | .ok hs =>
          match pyContainsStr "X-RateLimit-Reset" hs with
          | .error e => .error e
          | .ok false => .ok none
          | .ok true =>
            match pyIndexStr hs "X-RateLimit-Reset" with
            | .error e => .error e
            | .ok v => .ok (pyIntOfJVal v)

/-- The line loop of `parse_rate_limit_from_sse`.  Only `json.JSONDecodeError`
is caught there, so any other exception escapes as `.error`; a detected rate
limit breaks out of the loop with `.ok (true, reset)`. -/
def sseLoop : List String → Except PyErr (Bool × Option Int)
  | [] => .ok (false, none)
  | line :: rest =>
    if strStarts "data: " line then
      let dp := strDropChars 6 line
      if dp ≠ "" ∧ dp ≠ "[DONE]" then
        match jsonParse dp with
        | none => sseLoop rest
        | some dj =>
          match pyContainsStr "error" dj with
          | .error e => .error e
          | .ok false => sseLoop rest
          | .ok true =>
            match pyIndexStr dj "error" with
            | .error e => .error e
            | .ok err =>
              match pyContainsStr "message" err with
              | .error e => .error e
              | .ok false => sseLoop rest
              | .ok true =>
                match pyIndexStr err "message" with
                | .error e => .error e
                | .ok m =>
                  if beqJ m (.jstr RATE_LIMIT_ERROR_MESSAGE) then
                    match sseMetaReset err with
                    | .error e => .error e
                    | .ok r => .ok (true, r)
                  else sseLoop rest
      else sseLoop rest
    else sseLoop rest

/-- `utils.parse_rate_limit_from_sse`: split the chunk into lines and run the
loop.  The result is `.error e` exactly when the Python function raises. -/
def parse_rate_limit_from_sse (chunk : String) : Except PyErr (Bool × Option Int) :=
  sseLoop (splitLinesPy chunk)

/-! ## `key_manager.py`

Timestamps (`datetime.now()`, disable deadlines) are modelled as integer
milliseconds since the epoch; `datetime` comparisons become integer
comparisons.  The `disabled_until` dictionary is an association list with
unique keys: updates rewrite in place, fresh keys are appended, matching
Python dict insertion-order semantics. -/

/-- Dictionary lookup in `disabled_until`. -/
def assocGet (m : List (String × Int)) (k : String) : Option Int :=
  (m.find? fun p => p.1 = k).map (·.2)

/-- `del m[k]`. -/
def assocRemove (m : List (String × Int)) (k : String) : List (String × Int) :=
  m.filter fun p => p.1 ≠ k

/-- `m[k] = v`: overwrite in place if present, append otherwise. -/
def assocSet (m : List (String × Int)) (k : String) (v : Int) : List (String × Int) :=
  if m.any (fun p => p.1 = k) then
    m.map fun p => if p.1 = k then (k, v) else p
  else m ++ [(k, v)]

/-- `KeyManager` state: the fields of `key_manager.KeyManager` that the
algorithms read or write (the asyncio lock guards them; each embedded call is
one atomic step). -/
structure KMState where
  keys : List String
  cooldown_seconds : Int
  current_index : Nat
  disabled_until : List (String × Int)
  strategy : String
  use_last_key : Bool
  last_key : Option String
deriving Repr, DecidableEq

/-- Failures `get_next_key` can raise: the 503 `HTTPException` when all keys
are disabled (with the soonest deadline that was logged), the
`RuntimeError` for an unknown strategy, and the latent `NameError` were the
selection loop to fall through. -/
inductive KMErr where
  | allKeysDisabled (soonest : Option Int)
  | runtimeError
  | nameError
deriving Repr, DecidableEq

/-- The availability pass of `get_next_key`: walk `keys` in order; a key with
an expired entry is lazily removed from `disabled_until` and counted
available; a key with a live entry is skipped; an untracked key is
available.  Returns the available keys in order and the updated map. -/
def availPass (now : Int) : List String → List (String × Int) →
    List String × List (String × Int)
  | [], dis => ([], dis)
  | k :: rest, dis =>
    match assocGet dis k with
    | some d =>
      if now ≥ d then
        let (av, dis') := availPass now rest (assocRemove dis k)
        (k :: av, dis')
      else
        availPass now rest dis
    | none =>
      let (av, dis') := availPass now rest dis
      (k :: av, dis')

/-- Boolean membership for strings (Python `key in available_keys_set`). -/
def memStr (k : String) (l : List String) : Bool :=
  l.any fun x => x = k

/-- The round-robin selection loop: examine at most `fuel` keys (the source
iterates `len(self.keys)` times), always advancing the cursor, returning the
first available key together with the new cursor. -/
def rrWalk (keys : List String) (avail : List String) : Nat → Nat →
    Option (String × Nat)
  | 0, _ => none
  | f + 1, idx =>
    match keys.get? idx with
    | none => none
    | some k =>
      let idx' := (idx + 1) % keys.length
      if memStr k avail then some (k, idx') else rrWalk keys avail f idx'

/-- `KeyManager.get_next_key` as one atomic step at time `now`.  `rnd` is the
oracle for `random.choice` (an index into the available list). -/
def get_next_key (km : KMState) (now : Int) (rnd : Nat) :
    Except KMErr (String × KMState) :=
  let (avail, dis') := availPass now km.keys km.disabled_until
  if avail = [] then
    .error (.allKeysDisabled ((dis'.map (·.2)).min?))
  else
    let kmA := { km with disabled_until := dis' }
    let sticky : Bool :=
      match km.last_key with
      | some lk => km.use_last_key ∧ memStr lk avail
      | none => false
    if sticky then
      match km.last_key with
      | some lk => .ok (lk, { kmA with last_key := some lk })
      | none => .error .nameError
    else if km.strategy = "round-robin" then
      match rrWalk km.keys avail km.keys.length km.current_index with
      | some (k, idx') => .ok (k, { kmA with current_index := idx', last_key := some k })
      | none => .error .nameError
    else if km.strategy = "first" then
      match avail with
      | k :: _ => .ok (k, { kmA with last_key := some k })
      | [] => .error .nameError
    else if km.strategy = "random" then
      match avail.get? (rnd % avail.length) with
      | some k => .ok (k, { kmA with last_key := some k })
      | none => .error .nameError
    else .error .runtimeError

/-- `datetime.fromtimestamp(ms / 1000)`: succeeds for instants inside
`datetime`'s supported range (years 1–9999), raising (`none`) outside it;
the resulting instant is the same millisecond count. -/
def fromtimestampMs (ms : Int) : Option Int :=
  if -62135596800000 ≤ ms ∧ ms < 253402300800000 then some ms else none

/-- The deadline `disable_key` computes.  Note the truthiness test
`if reset_time_ms:` — `0` counts as not provided; an out-of-range
conversion falls back to the default cooldown. -/
def disableDeadline (cd : Int) (reset_time_ms : Option Int) (now : Int) : Int :=
  match reset_time_ms with
  | some r =>
    if r ≠ 0 then
      match fromtimestampMs r with
      | some t => if t > now then t else now + cd * 1000
      | none => now + cd * 1000
    else now + cd * 1000
  | none => now + cd * 1000

/-- `KeyManager.disable_key` as one atomic step at time `now`: the computed
deadline overwrites any existing entry for `key`. -/
def disable_key (km : KMState) (key : String) (reset_time_ms : Option Int)
    (now : Int) : KMState :=
  { km with disabled_until :=
      assocSet km.disabled_until key (disableDeadline km.cooldown_seconds reset_time_ms now) }

/-- Whether a key is logically available at `now` under the map `dis`: no
entry, or an entry whose deadline has passed (`now_ >= disabled_until[key]`,
lazily removed by the next `get_next_key`). -/
def isAvailD (dis : List (String × Int)) (now : Int) (k : String) : Bool :=
  match assocGet dis k with
  | some d => now ≥ d
  | none => true

/-- Availability of a key in a pool state. -/
def isAvail (km : KMState) (now : Int) (k : String) : Bool :=
  isAvailD km.disabled_until now k

/-- Number of available keys in the pool at `now`. -/
def availCount (km : KMState) (now : Int) : Nat :=
  (km.keys.filter (isAvail km now)).length

/-- The result of the `i`-th call (0-based) in a sequence of consecutive
`get_next_key` calls threading the pool state, with the `random` oracle
fixed at 0. -/
def callSeq (km : KMState) (now : Int) : Nat → Option (String × KMState)
  | 0 => (get_next_key km now 0).toOption
  | i + 1 =>
    match callSeq km now i with
    | some (_, km') => (get_next_key km' now 0).toOption
    | none => none

/-! ## `routes.py`

`routes.py` imports `check_rate_limit` and `check_rate_limit_chat` from
`utils`; their definitions are not among the sources (the sources ship the
older `check_rate_limit_error` / `parse_rate_limit_from_sse` revision), so
the forwarding logic is modelled parametrically in the detector: uses below
either quantify over it or need only the guard logic that precedes it. -/

/-- The argument `_check_httpx_err` hands to `check_rate_limit`: `none` when
the guard (`len(body) > 4000 or not api_key`) returns early, otherwise the
body with a leading `data: ` prefix stripped.  (`not api_key` is true for
`None` and for the empty string used on public endpoints.) -/
def checkHttpxErrArg (body : String) (api_key : String) : Option String :=
  if body.length > 4000 ∨ api_key = "" then none
  else some (if strStarts "data: " body then strDropChars 6 body else body)

/-- `routes._check_httpx_err`, parametric in the detector `det`
(`utils.check_rate_limit`): returns the key-pool state after the call and
the argument the detector was invoked on (`none` if it never ran). -/
def check_httpx_err (det : String → Bool × Option Int) (body : String)
    (api_key : String) (km : KMState) (now : Int) : KMState × Option String :=
  match checkHttpxErrArg body api_key with
  | none => (km, none)
  | some b =>
    match det b with
    | (true, reset) => (disable_key km api_key (reset) now, some b)
    | (false, _) => (km, some b)

/-- The six pricing fields `_remove_paid_models` inspects. -/
def priceFields : List String :=
  ["prompt", "completion", "request", "image", "web_search", "internal_reasoning"]

/-- `all(model.get("pricing", {}).get(k, "1") == "0" for k in prices)`.
`model.get` on a non-dict raises `AttributeError` (uncaught in the source),
as does `.get` on a non-dict `pricing` value. -/
def isFreeModel (m : JVal) : Except PyErr Bool :=
  match m with
  | .jobj mfs =>
    match (lookupLast mfs "pricing").getD (.jobj []) with
    | .jobj pfs =>
      .ok (priceFields.all fun k => beqJ ((lookupLast pfs k).getD (.jstr "1")) (.jstr "0"))
    | _ => .error .attributeError
  | _ => .error .attributeError

/-- The filtering loop of `_remove_paid_models`: keep the free entries in
order, propagating the first raised `AttributeError`. -/
def filterFree : List JVal → Except PyErr (List JVal)
  | [] => .ok []
  | m :: rest => do
    let b ← isFreeModel m
    let r ← filterFree rest
    .ok (if b then m :: r else r)

/-- Result of `_remove_paid_models`: the original bytes returned untouched,
a re-serialisation of the body with `data` replaced by `kept`, or an escaped
exception. -/
inductive RpmOut where
  | unchanged
  | filtered (kept : List JVal)
  | raised (e : PyErr)
deriving Repr

/-- `routes._remove_paid_models` over the parse of the body (`none` models a
`json.JSONDecodeError`, which the source catches and answers with the
original bytes). -/
def remove_paid_models (parsed : Option JVal) : RpmOut :=
  match parsed with
  | none => .unchanged
  | some (.jobj fs) =>
    match lookupLast fs "data" with
    | some (.jarr l) =>
      match filterFree l with
      | .error e => .raised e
      | .ok clear => if clear.isEmpty then .unchanged else .filtered clear
    | _ => .unchanged
  | some _ => .raised .attributeError

/-- The pricing test as a pure Boolean, total on well-formed entries (where
it agrees with `isFreeModel`). -/
def freeB (m : JVal) : Bool :=
  match m with
  | .jobj mfs =>
    match (lookupLast mfs "pricing").getD (.jobj []) with
    | .jobj pfs =>
      priceFields.all fun k => beqJ ((lookupLast pfs k).getD (.jstr "1")) (.jstr "0")
    | _ => false
  | _ => false

/-- A well-formed model entry: a JSON object whose `pricing` field, read
with the default `{}`, is an object — exactly the entries on which the
source's attribute accesses cannot raise. -/
def modelWFB (m : JVal) : Bool :=
  match m with
  | .jobj mfs =>
    match (lookupLast mfs "pricing").getD (.jobj []) with
    | .jobj _ => true
    | _ => false
  | _ => false

/-- The line loop of `routes.stream_completion`: returns the chunks yielded
to the client and the final value of the `data` variable, starting from the
accumulator `dat` (initially `''`). -/
def streamLoop : List String → String → List String × String
  | [], dat => ([], dat)
  | line :: rest, dat =>
    if strStarts "data: " line then
      let d := strDropChars 6 line
      if d = "[DONE]" then
        let (ys, fd) := streamLoop rest d
        ("data: [DONE]\n\n" :: ys, fd)
      else
        let (ys, fd) := streamLoop rest line
        ((line ++ "\n\n") :: ys, fd)
    else if line ≠ "" then
      let (ys, fd) := streamLoop rest dat
      ((line ++ "\n\n") :: ys, fd)
    else
      streamLoop rest dat

/-- `routes.stream_completion` on the decoded upstream lines: the forwarded
chunks and the retained `data` value that `_check_httpx_err` is called on
once, after the loop. -/
def stream_completion (lines : List String) : List String × String :=
  streamLoop lines ""

/-- The last line of the stream that starts with `data: `, if any. -/
def lastDataLine : List String → Option String
  | [] => none
  | line :: rest =>
    match lastDataLine rest with
    | some l => some l
    | none => if strStarts "data: " line then some line else none

/-- Outcome of one upstream send in `handle_completions`, as seen by the
`except` clause: a successful completion, an `APIError` that
`check_rate_limit_chat` classifies as a rate limit (carrying the reset time
it extracted), or any other failure.  The classification is part of the
oracle because `check_rate_limit_chat`'s definition is not in the sources. -/
inductive UpOutcome where
  | success
  | rateLimitError (resetMs : Option Int)
  | otherError
deriving Repr, DecidableEq

/-- How a `handle_completions` activation ends: with the successful response,
with an `HTTPException` built from the failed attempt, or with the 503 that
`get_next_key` raises when every key is disabled. -/
inductive CompFinal where
  | succeeded
  | errorPropagated
  | allKeys503
deriving Repr, DecidableEq

/-- Observable trace of a `handle_completions` activation: how many upstream
sends happened, which keys were disabled (in order), and the final result. -/
structure CompRun where
  sends : Nat
  disabledKeys : List String
  final : CompFinal
deriving Repr, DecidableEq

/-- `routes.handle_completions` for a non-streaming request: `upstream i` is
the outcome of the `i`-th send overall.  On a detected rate limit with a
usable `api_key`, the source disables the key, asks for a new one (a 503
propagates if none is left) and recurses with no depth counter; `fuel`
bounds the recursion only for well-foundedness and is unreachable whenever
it is at least the number of available keys. -/
def handle_completions (upstream : Nat → UpOutcome) :
    Nat → KMState → Int → String → Nat → CompRun
  | fuel, km, now, key, idx =>
    match upstream idx with
    | .success => ⟨1, [], .succeeded⟩
    | .otherError => ⟨1, [], .errorPropagated⟩
    | .rateLimitError reset =>
      if key ≠ "" then
        let km' := disable_key km key reset now
        match get_next_key km' now 0 with
        | .ok (k', km'') =>
          if k' = "" then ⟨1, [key], .errorPropagated⟩
          else
            match fuel with
            | 0 => ⟨1, [key], .errorPropagated⟩
            | f + 1 =>
              let r := handle_completions upstream f km'' now k' (idx + 1)
              ⟨r.sends + 1, key :: r.disabledKeys, r.final⟩
        | .error _ => ⟨1, [key], .allKeys503⟩
      else ⟨1, [], .errorPropagated⟩

/-- The completions path of `routes.proxy_endpoint`: fetch the first key from
the pool, then run `handle_completions`. -/
def proxyCompletions (upstream : Nat → UpOutcome) (fuel : Nat) (km : KMState)
    (now : Int) : CompRun :=
  match get_next_key km now 0 with
  | .ok (k, km') => handle_completions upstream fuel km' now k 0
  | .error _ => ⟨0, [], .allKeys503⟩

/-! ## Concrete fixtures used by the claim theorems -/

/-- Response headers announcing a JSON body and carrying no header-level
`X-RateLimit-Reset`. -/
def jsonHeaders : List (String × String) := [("Content-Type", "application/json")]

/-- The spec's first `detectFromBody` example document, with the metadata
reset but no `error.message`. -/
def bodyMetaResetOnly : Option JVal :=
  jsonParse "\x7b\"error\":\x7b\"code\":429,\"metadata\":\x7b\"headers\":\x7b\"X-RateLimit-Reset\":\"1700000000000\"\x7d\x7d\x7d\x7d"

/-- A 429 error body whose message differs from the constant. -/
def body429OtherMsg : Option JVal :=
  jsonParse "\x7b\"error\":\x7b\"code\":429,\"message\":\"Too many requests\"\x7d\x7d"

/-- A three-key pool in its freshly constructed state (round-robin, no
sticky option, 60-second cooldown). -/
def km3 : KMState := ⟨["k1", "k2", "k3"], 60, 0, [], "round-robin", false, none⟩

/-- A two-key pool that already carries a cooldown deadline for `k2`,
later than the deadline the witness overwrites it with. -/
def kmPrev : KMState :=
  ⟨["k1", "k2"], 60, 0, [("k2", 2000000000000)], "round-robin", false, none⟩

/-- A model entry all six of whose pricing fields are the string `"0"`. -/
def mFree : JVal :=
  .jobj [("id", .jstr "m1"),
    ("pricing", .jobj [("prompt", .jstr "0"), ("completion", .jstr "0"),
      ("request", .jstr "0"), ("image", .jstr "0"), ("web_search", .jstr "0"),
      ("internal_reasoning", .jstr "0")])]

/-- A model entry with one non-zero price. -/
def mPaid : JVal :=
  .jobj [("id", .jstr "m2"),
    ("pricing", .jobj [("prompt", .jstr "0.01"), ("completion", .jstr "0"),
      ("request", .jstr "0"), ("image", .jstr "0"), ("web_search", .jstr "0"),
      ("internal_reasoning", .jstr "0")])]

/-- Top-level fields of a models listing carrying the two entries above. -/
def modelsFs : List (String × JVal) := [("data", .jarr [mFree, mPaid])]

/-- Fields of `error.metadata.headers` in the full rate-limit body. -/
def hfsW : List (String × JVal) := [("X-RateLimit-Reset", .jstr "1700000000000")]

/-- Fields of `error.metadata` in the full rate-limit body. -/
def mfsW : List (String × JVal) := [("headers", .jobj hfsW)]

/-- Fields of `error` in the full rate-limit body: code, the exact message,
and the metadata reset. -/
def efsW : List (String × JVal) :=
  [("code", .jint 429), ("message", .jstr RATE_LIMIT_ERROR_MESSAGE), ("metadata", .jobj mfsW)]

/-- Top-level fields of the full rate-limit body. -/
def fsW : List (String × JVal) := [("error", .jobj efsW)]

/-- Fields of `error` in the spec's second example body: code 429 and the
exact message, no metadata. -/
def efs3 : List (String × JVal) :=
  [("code", .jint 429), ("message", .jstr RATE_LIMIT_ERROR_MESSAGE)]

/-- Top-level fields of the spec's second example body. -/
def fs3 : List (String × JVal) := [("error", .jobj efs3)]

/-! ## Helper lemmas -/

lemma any_key_of_lookupLast {fs : List (String × JVal)} {k : String} {v : JVal}
    (h : lookupLast fs k = some v) : (fs.any fun p => decide (p.1 = k)) = true := by
  unfold lookupLast at h
  rcases Option.map_eq_some'.mp h with ⟨a, ha, _⟩
  have hm : a ∈ fs.reverse := List.mem_of_find?_eq_some ha
  have hp := List.find?_some ha
  exact List.any_eq_true.mpr ⟨a, List.mem_reverse.mp hm, hp⟩

lemma lookupLast_isSome_of_any {fs : List (String × JVal)} {k : String}
    (h : (fs.any fun p => decide (p.1 = k)) = true) : ∃ v, lookupLast fs k = some v := by
  have h' : ∃ a, a ∈ fs.reverse ∧ (fun p : String × JVal => decide (p.1 = k)) a = true := by
    rcases List.any_eq_true.mp h with ⟨a, ham, hap⟩
    exact ⟨a, List.mem_reverse.mpr ham, hap⟩
  have hs : (fs.reverse.find? fun p => decide (p.1 = k)).isSome := List.find?_isSome.mpr h'
  rcases Option.isSome_iff_exists.mp hs with ⟨a, ha⟩
  exact ⟨a.2, by unfold lookupLast; rw [ha]; rfl⟩

lemma any_false_of_lookupLast_none {fs : List (String × JVal)} {k : String}
    (h : lookupLast fs k = none) : (fs.any fun p => decide (p.1 = k)) = false := by
  cases hb : fs.any fun p => decide (p.1 = k) with
  | false => rfl
  | true =>
    rcases lookupLast_isSome_of_any hb with ⟨v, hv⟩
    rw [h] at hv
    exact absurd hv (by simp)

lemma beqJ_jstr_iff {m : JVal} {s : String} : beqJ m (.jstr s) = true ↔ m = .jstr s := by
  cases m <;> simp [beqJ]

lemma pyIndexStr_ok {v : JVal} {k : String} {x : JVal} (h : pyIndexStr v k = .ok x) :
    ∃ fs, v = .jobj fs ∧ lookupLast fs k = some x := by
  cases v <;> simp [pyIndexStr] at h
  case jobj fs =>
    cases hl : lookupLast fs k with
    | none => rw [hl] at h; exact absurd h (by simp)
    | some y => rw [hl] at h; simp at h; exact ⟨fs, rfl, by rw [hl, h]⟩

lemma sseLoop_detected : ∀ (lines : List String) (rst : Option Int),
    sseLoop lines = .ok (true, rst) →
    ∃ line fs efs, line ∈ lines ∧ strStarts "data: " line = true ∧
      jsonParse (strDropChars 6 line) = some (.jobj fs) ∧
      lookupLast fs "error" = some (.jobj efs) ∧
      lookupLast efs "message" = some (.jstr RATE_LIMIT_ERROR_MESSAGE) := by
  intro lines
  induction lines with
  | nil => intro rst h; simp [sseLoop] at h
  | cons line rest ih =>
    intro rst h
    simp only [sseLoop] at h
    by_cases hst : strStarts "data: " line = true
    · rw [if_pos hst] at h
      by_cases hne : strDropChars 6 line ≠ "" ∧ strDropChars 6 line ≠ "[DONE]"
      · rw [if_pos hne] at h
        rcases hp : jsonParse (strDropChars 6 line) with _ | dj <;> rw [hp] at h
        · obtain ⟨l, fs, efs, hm, hr⟩ := ih rst h
          exact ⟨l, fs, efs, List.mem_cons_of_mem _ hm, hr⟩
        · dsimp only at h
          rcases h1 : pyContainsStr "error" dj with e1 | b1 <;> rw [h1] at h
          · exact absurd h (by simp)
          · cases b1 with
            | false =>
              dsimp only at h
              obtain ⟨l, fs, efs, hm, hr⟩ := ih rst h
              exact ⟨l, fs, efs, List.mem_cons_of_mem _ hm, hr⟩
            | true =>
              dsimp only at h
              rcases h2 : pyIndexStr dj "error" with e2 | err <;> rw [h2] at h
              · exact absurd h (by simp)
              · dsimp only at h
                rcases h3 : pyContainsStr "message" err with e3 | b3 <;> rw [h3] at h
                · exact absurd h (by simp)
                · cases b3 with
                  | false =>
                    dsimp only at h
                    obtain ⟨l, fs, efs, hm, hr⟩ := ih rst h
                    exact ⟨l, fs, efs, List.mem_cons_of_mem _ hm, hr⟩
                  | true =>
                    dsimp only at h
                    rcases h4 : pyIndexStr err "message" with e4 | m <;> rw [h4] at h
                    · exact absurd h (by simp)
                    · dsimp only at h
                      by_cases h5 : beqJ m (.jstr RATE_LIMIT_ERROR_MESSAGE) = true
                      · rcases pyIndexStr_ok h2 with ⟨fs, rfl, hl1⟩
                        rcases pyIndexStr_ok h4 with ⟨efs, rfl, hl2⟩
                        exact ⟨line, fs, efs, List.mem_cons_self _ _, hst, hp, hl1,
                          beqJ_jstr_iff.mp h5 ▸ hl2⟩
                      · rw [if_neg h5] at h
                        obtain ⟨l, fs, efs, hm, hr⟩ := ih rst h
                        exact ⟨l, fs, efs, List.mem_cons_of_mem _ hm, hr⟩
      · rw [if_neg hne] at h
        obtain ⟨l, fs, efs, hm, hr⟩ := ih rst h
        exact ⟨l, fs, efs, List.mem_cons_of_mem _ hm, hr⟩
    · rw [if_neg hst] at h
      obtain ⟨l, fs, efs, hm, hr⟩ := ih rst h
      exact ⟨l, fs, efs, List.mem_cons_of_mem _ hm, hr⟩

lemma streamLoop_retained : ∀ (lines : List String) (dat : String),
    (streamLoop lines dat).2 =
      match lastDataLine lines with
      | none => dat
      | some l => if strDropChars 6 l = "[DONE]" then "[DONE]" else l := by
  intro lines
  induction lines with
  | nil => intro dat; simp [streamLoop, lastDataLine]
  | cons line rest ih =>
    intro dat
    simp only [streamLoop, lastDataLine]
    by_cases hst : strStarts "data: " line = true
    · rw [if_pos hst]
      by_cases hd : strDropChars 6 line = "[DONE]"
      · rw [if_pos hd]
        cases hld : lastDataLine rest with
        | none => simp [ih, hld, hst, hd]
        | some l => simp [ih, hld]
      · rw [if_neg hd]
        cases hld : lastDataLine rest with
        | none => simp [ih, hld, hst, hd]
        | some l => simp [ih, hld]
    · simp only [hst]
      rw [if_neg (by simp [hst])]
      by_cases hne : line ≠ ""
      · rw [if_pos hne]
        cases hld : lastDataLine rest with
        | none => simp [ih, hld, Bool.false_eq_true, if_false]
        | some l => simp [ih, hld]
      · rw [if_neg hne]
        cases hld : lastDataLine rest with
        | none => simp [ih, hld]
        | some l => simp [ih, hld]

lemma assocGet_nil (x : String) : assocGet [] x = none := rfl

lemma assocGet_cons (a : String × Int) (l : List (String × Int)) (x : String) :
    assocGet (a :: l) x = if a.1 = x then some a.2 else assocGet l x := by
  by_cases h : a.1 = x <;> simp [assocGet, List.find?, h]

lemma assocGet_map_set (m : List (String × Int)) (k : String) (v : Int) (x : String) :
    assocGet (m.map fun p => if p.1 = k then (k, v) else p) x =
      (if x = k then (if (m.any fun p => p.1 = k) then some v else none)
       else assocGet m x) := by
  induction m with
  | nil => by_cases hx : x = k <;> simp [assocGet, hx]
  | cons p rest ih =>
    simp only [List.map_cons, List.any_cons]
    rw [assocGet_cons, assocGet_cons]
    by_cases hp : p.1 = k
    · rw [if_pos hp]
      by_cases hx : x = k
      · rw [if_pos (show ((k, v) : String × Int).1 = x by simpa using hx.symm)]
        simp [hp, hx]
      · rw [if_neg (show ¬((k, v) : String × Int).1 = x by simpa using fun h => hx h.symm)]
        rw [ih, if_neg hx, if_neg hx, if_neg (show ¬ p.1 = x from fun h => hx (h.symm.trans hp))]
    · rw [if_neg hp]
      by_cases hx : x = k
      · have hpx : ¬ p.1 = x := fun h => hp (h.trans hx)
        rw [if_neg hpx, ih, if_pos hx, if_pos hx]
        simp only [show decide (p.1 = k) = false from by simp [hp], Bool.false_or]
      · by_cases hpx : p.1 = x
        · rw [if_pos hpx, if_neg hx, if_pos hpx]
        · rw [if_neg hpx, if_neg hpx, ih, if_neg hx, if_neg hx]

lemma assocGet_eq_none_of_any_false {m : List (String × Int)} {k : String}
    (h : ¬ ((m.any fun p => p.1 = k) = true)) : assocGet m k = none := by
  cases hf : m.find? fun p => p.1 = k with
  | none => simp [assocGet, hf]
  | some a =>
    exact absurd
      (List.any_eq_true.mpr ⟨a, List.mem_of_find?_eq_some hf, List.find?_some hf⟩) h

lemma assocGet_append_single (m : List (String × Int)) (k : String) (v : Int) (x : String) :
    assocGet (m ++ [(k, v)]) x =
      (match assocGet m x with
       | some w => some w
       | none => if k = x then some v else none) := by
  induction m with
  | nil => simp [assocGet_nil, assocGet_cons]
  | cons a rest ih =>
    rw [List.cons_append, assocGet_cons, assocGet_cons]
    by_cases h : a.1 = x
    · rw [if_pos h, if_pos h]
    · rw [if_neg h, if_neg h, ih]

lemma assocGet_set (m : List (String × Int)) (k : String) (v : Int) (x : String) :
    assocGet (assocSet m k v) x = if x = k then some v else assocGet m x := by
  unfold assocSet
  by_cases hany : (m.any fun p => p.1 = k) = true
  · rw [if_pos hany, assocGet_map_set, hany]
    simp only [if_true]
  · rw [if_neg hany, assocGet_append_single]
    by_cases hx : x = k
    · subst hx
      rw [assocGet_eq_none_of_any_false hany]
    · cases hg : assocGet m x with
      | some w => rw [if_neg hx]
      | none =>
        show (if k = x then some v else none) = if x = k then some v else none
        rw [if_neg (fun h : k = x => hx h.symm), if_neg hx]

lemma fromtimestampMs_some {ms t : Int} (h : fromtimestampMs ms = some t) :
    t = ms ∧ -62135596800000 ≤ ms ∧ ms < 253402300800000 := by
  unfold fromtimestampMs at h
  by_cases hc : -62135596800000 ≤ ms ∧ ms < 253402300800000
  · rw [if_pos hc] at h
    cases h
    exact ⟨rfl, hc⟩
  · rw [if_neg hc] at h
    cases h

lemma availPass_nil_dis (now : Int) : ∀ keys : List String,
    availPass now keys [] = (keys, []) := by
  intro keys
  induction keys with
  | nil => rfl
  | cons k rest ih => simp [availPass, assocGet, ih]

lemma memStr_self {k : String} {l : List String} (h : k ∈ l) : memStr k l = true := by
  unfold memStr
  exact List.any_eq_true.mpr ⟨k, h, by simp⟩

lemma rrWalk_found {keys avail : List String} {idx : Nat} {k : String} (fuel : Nat)
    (hfuel : 0 < fuel) (hget : keys.get? idx = some k) (hmem : memStr k avail = true) :
    rrWalk keys avail fuel idx = some (k, (idx + 1) % keys.length) := by
  cases fuel with
  | zero => exact absurd hfuel (by omega)
  | succ f =>
    unfold rrWalk
    rw [hget]
    dsimp only
    rw [hmem]
    rfl

lemma rr_step (km : KMState) (now : Int) (rnd : Nat)
    (hd : km.disabled_until = []) (hulk : km.use_last_key = false)
    (hstrat : km.strategy = "round-robin") (hidx : km.current_index < km.keys.length) :
    get_next_key km now rnd =
      .ok (km.keys.get ⟨km.current_index, hidx⟩,
        { km with
          current_index := (km.current_index + 1) % km.keys.length,
          last_key := some (km.keys.get ⟨km.current_index, hidx⟩),
          disabled_until := [] }) := by
  have hpos : 0 < km.keys.length := Nat.lt_of_le_of_lt (Nat.zero_le _) hidx
  have hne : km.keys ≠ [] := List.ne_nil_of_length_pos hpos
  unfold get_next_key
  simp only [hd, availPass_nil_dis]
  rw [if_neg hne]
  have hsticky : (match km.last_key with
      | some lk => km.use_last_key ∧ memStr lk km.keys
      | none => false : Bool) = false := by
    cases km.last_key <;> simp [hulk]
  rw [hsticky]
  rw [hstrat]
  rw [if_neg Bool.false_ne_true, if_pos rfl]
  rw [rrWalk_found km.keys.length hpos
    (km.keys.get?_eq_get hidx) (memStr_self (km.keys.get_mem _ _))]

lemma callSeq_rr (keys : List String) (cd : Int) (lk0 : Option String) (now : Int)
    (hpos : 0 < keys.length) :
    ∀ i, callSeq ⟨keys, cd, 0, [], "round-robin", false, lk0⟩ now i =
      (keys.get? (i % keys.length)).map fun k =>
        (k, ⟨keys, cd, (i + 1) % keys.length, [], "round-robin", false, some k⟩) := by
  intro i
  induction i with
  | zero =>
    unfold callSeq
    rw [rr_step _ now 0 rfl rfl rfl (by simpa using hpos)]
    rw [Nat.zero_mod, List.get?_eq_get hpos]
    rfl
  | succ i ih =>
    unfold callSeq
    rw [ih]
    have hmod : i % keys.length < keys.length := Nat.mod_lt _ hpos
    have hlt : (i + 1) % keys.length < keys.length := Nat.mod_lt _ hpos
    rw [List.get?_eq_get hmod]
    simp only [Option.map_some']
    rw [rr_step _ now 0 rfl rfl rfl (by simpa using hlt)]
    rw [List.get?_eq_get hlt]
    simp only [Option.map_some', Except.toOption]
    have harith : ((i + 1) % keys.length + 1) % keys.length =
        (i + 1 + 1) % keys.length := Nat.mod_add_mod _ _ _
    rw [show (⟨keys, cd, ((i + 1) % keys.length + 1) % keys.length, [], "round-robin",
        false, some (keys.get ⟨(i + 1) % keys.length, hlt⟩)⟩ : KMState) =
      ⟨keys, cd, (i + 1 + 1) % keys.length, [], "round-robin",
        false, some (keys.get ⟨(i + 1) % keys.length, hlt⟩)⟩ from by rw [harith]]

lemma callSeq_fst (keys : List String) (cd : Int) (lk0 : Option String) (now : Int)
    (hpos : 0 < keys.length) (i : Nat) :
    (callSeq ⟨keys, cd, 0, [], "round-robin", false, lk0⟩ now i).map Prod.fst =
      keys.get? (i % keys.length) := by
  rw [callSeq_rr keys cd lk0 now hpos i, Option.map_map]
  have hmod : i % keys.length < keys.length := Nat.mod_lt _ hpos
  rw [List.get?_eq_get hmod]
  rfl

lemma isFreeModel_wf {m : JVal} (h : modelWFB m = true) : isFreeModel m = .ok (freeB m) := by
  cases m <;> simp [modelWFB] at h
  case jobj mfs =>
    unfold isFreeModel freeB
    cases hp : (lookupLast mfs "pricing").getD (.jobj []) <;>
      simp [modelWFB, hp] at h ⊢

lemma filterFree_wf : ∀ (l : List JVal), l.all modelWFB = true →
    filterFree l = .ok (l.filter freeB) := by
  intro l
  induction l with
  | nil => intro _; rfl
  | cons m rest ih =>
    intro h
    rw [List.all_cons, Bool.and_eq_true] at h
    unfold filterFree
    rw [isFreeModel_wf h.1]
    simp only [Except.bind, List.filter_cons]
    rw [ih h.2]
    cases hf : freeB m <;> rfl

lemma remove_paid_models_ne_empty : ∀ p, remove_paid_models p ≠ .filtered [] := by
  intro p hc
  unfold remove_paid_models at hc
  cases p with
  | none => exact RpmOut.noConfusion hc
  | some v =>
    cases v
    case jobj gs =>
      dsimp only at hc
      cases hd : lookupLast gs "data" with
      | none => rw [hd] at hc; exact RpmOut.noConfusion hc
      | some d =>
        rw [hd] at hc
        cases d <;> try exact RpmOut.noConfusion hc
        case jarr l2 =>
          dsimp only at hc
          cases hff : filterFree l2 with
          | error e => rw [hff] at hc; exact RpmOut.noConfusion hc
          | ok clear =>
            rw [hff] at hc
            dsimp only at hc
            cases hcl : clear.isEmpty with
            | true => rw [hcl, if_pos rfl] at hc; exact RpmOut.noConfusion hc
            | false =>
              rw [hcl, if_neg Bool.false_ne_true] at hc
              injection hc with h2
              rw [h2] at hcl
              exact Bool.noConfusion hcl
    all_goals exact RpmOut.noConfusion hc

lemma lastDataLine_starts : ∀ (lines : List String) (l : String),
    lastDataLine lines = some l → strStarts "data: " l = true := by
  intro lines
  induction lines with
  | nil => intro l h; simp [lastDataLine] at h
  | cons line rest ih =>
    intro l h
    simp only [lastDataLine] at h
    cases hld : lastDataLine rest with
    | some l2 => rw [hld] at h; exact ih l (by rw [hld, ← h])
    | none =>
      rw [hld] at h
      by_cases hst : strStarts "data: " line = true
      · rw [if_pos hst] at h
        cases h
        exact hst
      · rw [if_neg hst] at h; cases h

lemma assocGet_remove (dis : List (String × Int)) (k x : String) :
    assocGet (assocRemove dis k) x = if x = k then none else assocGet dis x := by
  induction dis with
  | nil => by_cases hx : x = k <;> simp [assocRemove, assocGet, hx]
  | cons a rest ih =>
    by_cases hak : a.1 = k
    · have : assocRemove (a :: rest) k = assocRemove rest k := by
        simp [assocRemove, List.filter_cons, hak]
      rw [this, ih]
      by_cases hx : x = k
      · rw [if_pos hx, if_pos hx]
      · rw [if_neg hx, if_neg hx, assocGet_cons,
          if_neg (show ¬ a.1 = x from fun h => hx (h.symm.trans hak))]
    · have : assocRemove (a :: rest) k = a :: assocRemove rest k := by
        simp [assocRemove, List.filter_cons, hak]
      rw [this, assocGet_cons, assocGet_cons, ih]
      by_cases hax : a.1 = x
      · rw [if_pos hax, if_pos hax,
          if_neg (show ¬ x = k from fun h => hak (hax.trans h))]
      · rw [if_neg hax, if_neg hax]

lemma isAvailD_remove_expired {dis : List (String × Int)} {now d : Int} {k : String}
    (hk : assocGet dis k = some d) (hge : now ≥ d) :
    ∀ x, isAvailD (assocRemove dis k) now x = isAvailD dis now x := by
  intro x
  unfold isAvailD
  rw [assocGet_remove]
  by_cases hx : x = k
  · rw [if_pos hx, hx, hk]
    simp [hge]
  · rw [if_neg hx]

lemma availPass_spec (now : Int) : ∀ (keys : List String) (dis : List (String × Int)),
    (availPass now keys dis).1 = keys.filter (isAvailD dis now) ∧
    (∀ x, isAvailD (availPass now keys dis).2 now x = isAvailD dis now x) := by
  intro keys
  induction keys with
  | nil => intro dis; exact ⟨rfl, fun x => rfl⟩
  | cons k rest ih =>
    intro dis
    unfold availPass
    cases hk : assocGet dis k with
    | none =>
      dsimp only
      have hav : isAvailD dis now k = true := by unfold isAvailD; rw [hk]
      obtain ⟨h1, h2⟩ := ih dis
      constructor
      · simp only [List.filter_cons, hav, if_true]
        rw [← h1]
      · intro x
        exact h2 x
    | some d =>
      dsimp only
      by_cases hge : now ≥ d
      · rw [if_pos hge]
        have hav : isAvailD dis now k = true := by
          unfold isAvailD; rw [hk]; simp [hge]
        obtain ⟨h1, h2⟩ := ih (assocRemove dis k)
        have hpt := isAvailD_remove_expired hk hge
        constructor
        · simp only [List.filter_cons, hav, if_true]
          rw [h1, List.filter_congr (fun x _ => hpt x)]
        · intro x
          rw [h2 x, hpt x]
      · rw [if_neg hge]
        have hav : isAvailD dis now k = false := by
          unfold isAvailD; rw [hk]; simpa using hge
        obtain ⟨h1, h2⟩ := ih dis
        constructor
        · simp only [List.filter_cons, hav]
          rw [h1]
          simp
        · intro x
          exact h2 x


lemma rrWalk_mem {keys avail : List String} {k : String} {idx' : Nat} :
    ∀ (fuel idx : Nat), rrWalk keys avail fuel idx = some (k, idx') →
      memStr k avail = true := by
  intro fuel
  induction fuel with
  | zero => intro idx h; simp [rrWalk] at h
  | succ f ih =>
    intro idx h
    unfold rrWalk at h
    cases hg : keys.get? idx with
    | none => rw [hg] at h; exact absurd h (by simp)
    | some k0 =>
      rw [hg] at h
      dsimp only at h
      by_cases hm : memStr k0 avail = true
      · rw [if_pos hm] at h
        injection h with h1
        injection h1 with h2 h3
        rw [← h2]
        exact hm
      · rw [if_neg hm] at h
        exact ih _ h

lemma memStr_mem {k : String} {l : List String} (h : memStr k l = true) : k ∈ l := by
  unfold memStr at h
  rcases List.any_eq_true.mp h with ⟨x, hx, hxe⟩
  simp at hxe
  rwa [← hxe]

lemma disableDeadline_future (cd : Int) (r? : Option Int) (now : Int) (hcd : 0 < cd) :
    now < disableDeadline cd r? now := by
  cases r? with
  | none => unfold disableDeadline; dsimp only; omega
  | some rv =>
    unfold disableDeadline
    dsimp only
    by_cases h0 : rv ≠ 0
    · rw [if_pos h0]
      cases hts : fromtimestampMs rv with
      | none => dsimp only; omega
      | some t =>
        dsimp only
        by_cases ht : t > now
        · rw [if_pos ht]
          exact ht
        · rw [if_neg ht]
          omega
    · rw [if_neg h0]
      omega

lemma isAvail_disable (km : KMState) (key : String) (r? : Option Int) (now : Int)
    (hcd : 0 < km.cooldown_seconds) :
    ∀ x, isAvail (disable_key km key r? now) now x =
      if x = key then false else isAvail km now x := by
  intro x
  unfold isAvail isAvailD disable_key
  dsimp only
  rw [assocGet_set]
  by_cases hx : x = key
  · rw [if_pos hx, if_pos hx]
    dsimp only
    have := disableDeadline_future km.cooldown_seconds r? now hcd
    simp only [ge_iff_le, decide_eq_false_iff_not]
    omega
  · rw [if_neg hx, if_neg hx]

lemma get_next_key_ok {km : KMState} {now : Int} {rnd : Nat} {k' : String}
    {km'' : KMState} (h : get_next_key km now rnd = .ok (k', km'')) :
    k' ∈ km.keys ∧ isAvail km now k' = true ∧ km''.keys = km.keys ∧
      km''.cooldown_seconds = km.cooldown_seconds ∧
      (∀ x, isAvail km'' now x = isAvail km now x) := by
  unfold get_next_key at h
  obtain ⟨hfst, hsnd⟩ := availPass_spec now km.keys km.disabled_until
  rcases hap : availPass now km.keys km.disabled_until with ⟨avail, dis'⟩
  rw [hap] at h hfst
  rw [hap] at hsnd
  dsimp only at h hfst hsnd
  have hmem_all : ∀ x, memStr x avail = true →
      x ∈ km.keys ∧ isAvail km now x = true := by
    intro x hx
    have hxm := memStr_mem hx
    rw [hfst] at hxm
    have := List.mem_filter.mp hxm
    exact ⟨this.1, this.2⟩
  by_cases hav : avail = []
  · rw [if_pos hav] at h
    exact absurd h (by simp)
  · rw [if_neg hav] at h
    have hpost : ∀ st : KMState, st.disabled_until = dis' →
        (∀ x, isAvail st now x = isAvail km now x) := by
      intro st hst x
      unfold isAvail
      rw [hst]
      exact hsnd x
    have hdispatch : ∀ (hD : (if km.strategy = "round-robin" then
        match rrWalk km.keys avail km.keys.length km.current_index with
        | some (k, idx') =>
          Except.ok (k,
            { km with disabled_until := dis', current_index := idx', last_key := some k })
        | none => Except.error KMErr.nameError
      else if km.strategy = "first" then
        match avail with
        | k :: _ =>
          Except.ok (k, { km with disabled_until := dis', last_key := some k })
        | [] => Except.error KMErr.nameError
      else if km.strategy = "random" then
        match avail.get? (rnd % avail.length) with
        | some k =>
          Except.ok (k, { km with disabled_until := dis', last_key := some k })
        | none => Except.error KMErr.nameError
      else Except.error KMErr.runtimeError) = Except.ok (k', km'')),
        k' ∈ km.keys ∧ isAvail km now k' = true ∧ km''.keys = km.keys ∧
          km''.cooldown_seconds = km.cooldown_seconds ∧
          (∀ x, isAvail km'' now x = isAvail km now x) := by
      intro hD
      by_cases hs1 : km.strategy = "round-robin"
      · rw [if_pos hs1] at hD
        cases hrw : rrWalk km.keys avail km.keys.length km.current_index with
        | none => rw [hrw] at hD; exact absurd hD (by simp)
        | some pr =>
          obtain ⟨k0, idx'⟩ := pr
          rw [hrw] at hD
          dsimp only at hD
          injection hD with h1
          injection h1 with h2 h3
          have hm := rrWalk_mem _ _ hrw
          obtain ⟨hk1, hk2⟩ := hmem_all k0 hm
          subst h2
          exact ⟨hk1, hk2, by rw [← h3], by rw [← h3],
            fun x => hpost km'' (by rw [← h3]) x⟩
      · rw [if_neg hs1] at hD
        by_cases hs2 : km.strategy = "first"
        · rw [if_pos hs2] at hD
          cases havl : avail with
          | nil => exact absurd havl hav
          | cons k0 tail =>
            rw [havl] at hD
            dsimp only at hD
            injection hD with h1
            injection h1 with h2 h3
            have hm : memStr k0 avail = true := by
              rw [havl]; exact memStr_self (List.mem_cons_self _ _)
            obtain ⟨hk1, hk2⟩ := hmem_all k0 hm
            subst h2
            exact ⟨hk1, hk2, by rw [← h3], by rw [← h3],
              fun x => hpost km'' (by rw [← h3]) x⟩
        · rw [if_neg hs2] at hD
          by_cases hs3 : km.strategy = "random"
          · rw [if_pos hs3] at hD
            cases hg : avail.get? (rnd % avail.length) with
            | none => rw [hg] at hD; exact absurd hD (by simp)
            | some k0 =>
              rw [hg] at hD
              dsimp only at hD
              injection hD with h1
              injection h1 with h2 h3
              have hm : memStr k0 avail = true := memStr_self (List.get?_mem hg)
              obtain ⟨hk1, hk2⟩ := hmem_all k0 hm
              subst h2
              exact ⟨hk1, hk2, by rw [← h3], by rw [← h3],
                fun x => hpost km'' (by rw [← h3]) x⟩
          · rw [if_neg hs3] at hD
            exact absurd hD (by simp)
    cases hlk : km.last_key with
    | some lk =>
      rw [hlk] at h
      dsimp only at h
      by_cases hsb : (decide (km.use_last_key = true ∧ memStr lk avail = true)) = true
      · rw [if_pos hsb] at h
        injection h with h1
        injection h1 with h2 h3
        obtain ⟨hu, hm⟩ := of_decide_eq_true hsb
        obtain ⟨hk1, hk2⟩ := hmem_all lk hm
        subst h2
        exact ⟨hk1, hk2, by rw [← h3], by rw [← h3],
          fun x => hpost km'' (by rw [← h3]) x⟩
      · rw [if_neg hsb] at h
        exact hdispatch h
    | none =>
      rw [hlk] at h
      dsimp only at h
      rw [if_neg Bool.false_ne_true] at h
      exact hdispatch h

lemma filter_length_update {l : List String} {key : String} (hnd : l.Nodup)
    (hmem : key ∈ l) {p q : String → Bool}
    (hq : ∀ x, q x = if x = key then false else p x) (hp : p key = true) :
    (l.filter q).length + 1 = (l.filter p).length := by
  induction l with
  | nil => cases hmem
  | cons a rest ih =>
    rw [List.filter_cons, List.filter_cons]
    by_cases hak : a = key
    · subst hak
      rw [hp, hq a, if_pos rfl]
      have hnr : a ∉ rest := (List.nodup_cons.mp hnd).1
      have hfc : rest.filter q = rest.filter p := by
        apply List.filter_congr
        intro x hxm
        rw [hq x, if_neg (fun he : x = a => hnr (he ▸ hxm))]
      rw [hfc]
      simp
    · have hmem' : key ∈ rest := by
        rcases List.mem_cons.mp hmem with he | hm
        · exact absurd he.symm hak
        · exact hm
      have hnd' := (List.nodup_cons.mp hnd).2
      rw [hq a, if_neg hak]
      cases hpa : p a
      · rw [if_neg Bool.false_ne_true, if_neg Bool.false_ne_true]
        exact ih hnd' hmem'
      · rw [if_pos rfl, if_pos rfl, List.length_cons, List.length_cons]
        have := ih hnd' hmem'
        omega


lemma availCount_pos {km : KMState} {now : Int} {key : String}
    (hmem : key ∈ km.keys) (havail : isAvail km now key = true) :
    1 ≤ availCount km now := by
  unfold availCount
  exact List.length_pos_of_mem (List.mem_filter.mpr ⟨hmem, havail⟩)

lemma handle_completions_sends_le :
    ∀ (fuel : Nat) (upstream : Nat → UpOutcome) (km : KMState) (now : Int)
      (key : String) (idx : Nat), 0 < km.cooldown_seconds → km.keys.Nodup →
      key ∈ km.keys → isAvail km now key = true →
      (handle_completions upstream fuel km now key idx).sends ≤ availCount km now := by
  intro fuel
  induction fuel with
  | zero =>
    intro upstream km now key idx hcd hnd hmem havail
    have h1 := availCount_pos hmem havail
    unfold handle_completions
    cases hu : upstream idx with
    | success => exact h1
    | otherError => exact h1
    | rateLimitError rv =>
      dsimp only
      by_cases hk : key ≠ ""
      · rw [if_pos hk]
        cases hgk : get_next_key (disable_key km key rv now) now 0 with
        | ok pr =>
          obtain ⟨k', km''⟩ := pr
          dsimp only
          by_cases hk' : k' = ""
          · rw [if_pos hk']
            exact h1
          · rw [if_neg hk']
            exact h1
        | error e => exact h1
      · rw [if_neg hk]
        exact h1
  | succ f ih =>
    intro upstream km now key idx hcd hnd hmem havail
    have h1 := availCount_pos hmem havail
    unfold handle_completions
    cases hu : upstream idx with
    | success => exact h1
    | otherError => exact h1
    | rateLimitError rv =>
      dsimp only
      by_cases hk : key ≠ ""
      · rw [if_pos hk]
        cases hgk : get_next_key (disable_key km key rv now) now 0 with
        | ok pr =>
          obtain ⟨k', km''⟩ := pr
          dsimp only
          by_cases hk' : k' = ""
          · rw [if_pos hk']
            exact h1
          · rw [if_neg hk']
            dsimp only
            obtain ⟨hmem', havail', hkeys', hcd', hinv'⟩ := get_next_key_ok hgk
            have hkeq : (disable_key km key rv now).keys = km.keys := rfl
            have hcdeq : (disable_key km key rv now).cooldown_seconds =
              km.cooldown_seconds := rfl
            have hdis := isAvail_disable km key rv now hcd
            have hrec := ih upstream km'' now k' (idx + 1)
              (by rw [hcd', hcdeq]; exact hcd)
              (by rw [hkeys', hkeq]; exact hnd)
              (by rw [hkeys']; exact hmem')
              (by rw [hinv' k']; exact havail')
            have hc2 : availCount km'' now = availCount (disable_key km key rv now) now := by
              unfold availCount
              rw [hkeys']
              exact congrArg List.length (List.filter_congr fun x _ => hinv' x)
            have hc3 : availCount (disable_key km key rv now) now + 1 =
                availCount km now := by
              unfold availCount
              rw [hkeq]
              exact filter_length_update hnd hmem (fun x => hdis x) havail
            omega
        | error e => exact h1
      · rw [if_neg hk]
        exact h1

/-! ## Claim theorems -/

/-- C1 (counterexample): on the quoted example body — a JSON document whose
`error.metadata.headers["X-RateLimit-Reset"]` parses as the integer
1700000000000 — `check_rate_limit_error` answers `(false, none)`, not the
`(true, 1700000000000)` the claim requires: detection keys on
`error.message`, which this body lacks. -/
theorem C1_counterexample :
    check_rate_limit_error jsonHeaders bodyMetaResetOnly = (false, none) ∧
      check_rate_limit_error jsonHeaders bodyMetaResetOnly ≠ (true, some 1700000000000) := by
  exact ⟨by decide, by decide⟩

/-- C1 (amended): the metadata reset is honoured only on bodies that also
carry the exact rate-limit message — for any response whose content type
contains `application/json` and whose body is an object with
`error.message` equal to the constant and
`error.metadata.headers["X-RateLimit-Reset"]` converting to an integer `r`,
`check_rate_limit_error` returns `(true, r)`; the quoted example body,
which lacks the message, is not detected (see the counterexample). -/
theorem C1_amended (hdrs : List (String × String))
    (fs efs mfs hfs : List (String × JVal)) (v : JVal) (r : Int)
    (hct : hasSub "application/json" ((headerGet hdrs "content-type").getD "") = true)
    (herr : lookupLast fs "error" = some (.jobj efs))
    (hmsg : lookupLast efs "message" = some (.jstr RATE_LIMIT_ERROR_MESSAGE))
    (hmd : lookupLast efs "metadata" = some (.jobj mfs))
    (hhd : lookupLast mfs "headers" = some (.jobj hfs))
    (hrs : lookupLast hfs "X-RateLimit-Reset" = some v)
    (hint : pyIntOfJVal v = some r) :
    check_rate_limit_error hdrs (some (.jobj fs)) = (true, some r) := by
  have ha1 := any_key_of_lookupLast herr
  have ha2 := any_key_of_lookupLast hmsg
  have ha3 := any_key_of_lookupLast hmd
  have ha4 := any_key_of_lookupLast hhd
  have ha5 := any_key_of_lookupLast hrs
  unfold check_rate_limit_error metaResetBody
  simp [pyContainsStr, pyIndexStr, hct, ha1, herr, ha2, hmsg, ha3, hmd, ha4, hhd,
    ha5, hrs, hint, beqJ]

/-- C1 witness: the amended claim applied to the full body — example text
plus the required message — yields `(true, 1700000000000)`. -/
theorem C1_amended_witness :
    check_rate_limit_error jsonHeaders (some (.jobj fsW)) = (true, some 1700000000000) :=
  C1_amended jsonHeaders fsW efsW mfsW hfsW (.jstr "1700000000000") 1700000000000
    (by decide) rfl rfl rfl rfl rfl (by decide)

/-- C3 (counterexample): a body with `error.code = 429`, no metadata, and a
message other than the constant yields `(false, none)`, although the claim
requires `(true, null)` for every such 429 body regardless of the message. -/
theorem C3_counterexample :
    check_rate_limit_error jsonHeaders body429OtherMsg = (false, none) ∧
      check_rate_limit_error jsonHeaders body429OtherMsg ≠ (true, none) := by
  exact ⟨by decide, by decide⟩

/-- C3 (amended): generic 429 detection does not exist — what the code
detects is the exact message.  For any response whose content type contains
`application/json`, carries no header-level reset, and whose body is an
object with `error.message` equal to the constant and no
`error.metadata`, `check_rate_limit_error` returns `(true, none)`; the
spec's example body (which does carry that exact message) is an instance,
but a 429 body with any other message is not detected. -/
theorem C3_amended (hdrs : List (String × String)) (fs efs : List (String × JVal))
    (hct : hasSub "application/json" ((headerGet hdrs "content-type").getD "") = true)
    (hnohdr : headerGet hdrs "X-RateLimit-Reset" = none)
    (herr : lookupLast fs "error" = some (.jobj efs))
    (hmsg : lookupLast efs "message" = some (.jstr RATE_LIMIT_ERROR_MESSAGE))
    (hmd : lookupLast efs "metadata" = none) :
    check_rate_limit_error hdrs (some (.jobj fs)) = (true, none) := by
  have ha1 := any_key_of_lookupLast herr
  have ha2 := any_key_of_lookupLast hmsg
  have ha3 := any_false_of_lookupLast_none hmd
  unfold check_rate_limit_error metaResetBody headerResetOf
  simp [pyContainsStr, pyIndexStr, hct, hnohdr, ha1, herr, ha2, hmsg, ha3, beqJ]

/-- C3 witness: the spec's example body — 429 with the exact message and no
metadata — yields `(true, none)`. -/
theorem C3_amended_witness :
    check_rate_limit_error jsonHeaders (some (.jobj fs3)) = (true, none) :=
  C3_amended jsonHeaders fs3 efs3 (by decide) rfl rfl rfl rfl

/-- C5 (code evaluated at the failing input): the SSE entry point raises an
uncaught `TypeError` on the well-formed JSON payload `{"error": 7}` — the
membership test `"message" in data_json["error"]` is applied to an integer
and only `json.JSONDecodeError` is caught — contradicting the claim that
the detectors never raise. -/
theorem C5_sse_raises :
    parse_rate_limit_from_sse "data: \x7b\"error\": 7\x7d" = .error .typeError := by
  rfl

/-- C2 (counterexample): with three keys and an upstream that rate-limits
every attempt, the orchestrator performs three upstream sends and three
`disable` calls before failing with the 503 — not the "at most two sends"
the claim states: the recursion in `handle_completions` has no depth cap. -/
theorem C2_counterexample :
    proxyCompletions (fun _ => .rateLimitError none) 3 km3 0 =
      ⟨3, ["k1", "k2", "k3"], .allKeys503⟩ ∧ ¬ (3 ≤ 2) := by
  exact ⟨by decide, by decide⟩

/-- C2 (amended): the retry recursion is not capped at one — on every
rate-limit detection the key is disabled and the request resent with a
fresh key, repeating while rate limits recur and keys remain (see the
counterexample with three sends).  What does hold: each attempt disables
its own key first, so with distinct keys and a positive cooldown the total
number of upstream sends per inbound request is bounded by the number of
keys in the pool, and termination follows from key exhaustion rather than
from a depth cap. -/
theorem C2_sends_bounded (fuel : Nat) (upstream : Nat → UpOutcome) (km : KMState)
    (now : Int) (key : String) (idx : Nat)
    (hcd : 0 < km.cooldown_seconds) (hnd : km.keys.Nodup)
    (hmem : key ∈ km.keys) (havail : isAvail km now key = true) :
    (handle_completions upstream fuel km now key idx).sends ≤ km.keys.length := by
  have h := handle_completions_sends_le fuel upstream km now key idx hcd hnd hmem havail
  have h2 : availCount km now ≤ km.keys.length := List.length_filter_le _ _
  omega

/-- C2 witness: the spec's 429-then-200 scenario on the three-key pool — two
sends, within the three-key bound. -/
theorem C2_sends_bounded_witness :
    (handle_completions (fun i => if i = 0 then .rateLimitError none else .success)
        3 km3 0 "k1" 0).sends ≤ km3.keys.length :=
  C2_sends_bounded 3 (fun i => if i = 0 then .rateLimitError none else .success)
    km3 0 "k1" 0 (by decide) (by decide) (by decide) (by decide)

/-- C4 (counterexample): when the upstream stream ends with the terminator
line, the retained `data` variable is the literal `[DONE]`, and the
end-of-stream call to `_check_httpx_err` passes exactly that token to the
detector — the claim says the detector is never applied to the terminator
and that the check runs against the last non-terminator payload (here the
rate-limit error event, which is therefore missed). -/
theorem C4_counterexample :
    (stream_completion
        ["data: \x7b\"error\":\x7b\"message\":\"Rate limit exceeded: free-models-per-day\"\x7d\x7d",
         "data: [DONE]"]).2 = "[DONE]" ∧
      checkHttpxErrArg "[DONE]" "sk-or-key1" = some "[DONE]" := by
  exact ⟨by decide, by decide⟩

/-- C4 (amended): `_check_httpx_err` runs exactly once after the stream, on
the retained `data` variable — which is the full text of the last `data:`
line when its payload is not the terminator (so the detector sees that
payload, prefix stripped), but is the literal `[DONE]` when the stream's
last data line is the terminator, in which case the detector is applied to
`[DONE]` itself (where detection trivially fails, any payload before the
terminator going unexamined). -/
theorem C4_amended (lines : List String) (key : String) (l : String)
    (hlast : lastDataLine lines = some l)
    (hkey : key ≠ "")
    (hlen : l.length ≤ 4000) :
    (stream_completion lines).2 = (if strDropChars 6 l = "[DONE]" then "[DONE]" else l) ∧
    checkHttpxErrArg (stream_completion lines).2 key =
      some (if strDropChars 6 l = "[DONE]" then "[DONE]" else strDropChars 6 l) := by
  have hret : (stream_completion lines).2 =
      (if strDropChars 6 l = "[DONE]" then "[DONE]" else l) := by
    unfold stream_completion
    rw [streamLoop_retained, hlast]
  refine ⟨hret, ?_⟩
  rw [hret]
  by_cases hd : strDropChars 6 l = "[DONE]"
  · rw [if_pos hd, if_pos hd]
    have hg : ¬((("[DONE]" : String)).length > 4000 ∨ key = "") := by
      rintro (hc | hc)
      · revert hc; decide
      · exact hkey hc
    unfold checkHttpxErrArg
    rw [if_neg hg, if_neg (by decide)]
  · rw [if_neg hd, if_neg hd]
    have hg : ¬(l.length > 4000 ∨ key = "") := by
      rintro (hc | hc)
      · omega
      · exact hkey hc
    unfold checkHttpxErrArg
    rw [if_neg hg, if_pos (lastDataLine_starts lines l hlast)]

/-- C4 witness: a stream whose last data line carries a real payload — the
retained value is the full line and the detector receives the payload. -/
theorem C4_amended_witness :
    checkHttpxErrArg (stream_completion ["data: hello"]).2 "k" = some "hello" := by
  have h := C4_amended ["data: hello"] "k" "data: hello" (by decide) (by decide) (by decide)
  exact h.2.trans (by decide)

/-- C6: with no sticky option, strategy round-robin, a fresh cursor and
every key available throughout, the `i`-th call returns the key at index
`i mod N` — the pool is walked in insertion order, repeating with period
`N` — and any `N` consecutive calls return a permutation of the whole key
list (each key exactly once). -/
theorem C6_round_robin (km : KMState) (now : Int)
    (hd : km.disabled_until = []) (hulk : km.use_last_key = false)
    (hstrat : km.strategy = "round-robin") (hidx : km.current_index = 0)
    (hpos : 0 < km.keys.length) :
    (∀ i, (callSeq km now i).map Prod.fst = km.keys.get? (i % km.keys.length)) ∧
    (∀ m, List.Perm
      ((List.range km.keys.length).map fun j => (callSeq km now (m + j)).map Prod.fst)
      (km.keys.map some)) := by
  obtain ⟨keys, cd, ci, du, st, ul, lk⟩ := km
  dsimp only at hd hulk hstrat hidx hpos ⊢
  subst hd hulk hstrat hidx
  constructor
  · intro i
    exact callSeq_fst keys cd lk now hpos i
  · intro m
    have h1 : ((List.range keys.length).map fun j =>
        (callSeq ⟨keys, cd, 0, [], "round-robin", false, lk⟩ now (m + j)).map Prod.fst) =
        (keys.map some).rotate (m % keys.length) := by
      apply List.ext
      intro n
      by_cases hn : n < keys.length
      · rw [List.get?_map, List.get?_range hn]
        simp only [Option.map_some']
        rw [callSeq_fst keys cd lk now hpos (m + n)]
        have hn' : n < (keys.map some).length := by simpa using hn
        rw [List.get?_rotate hn', List.get?_map]
        have harith : (n + m % keys.length) % (keys.map some).length =
            (m + n) % keys.length := by
          rw [List.length_map, Nat.add_comm n (m % keys.length), Nat.mod_add_mod]
        rw [harith]
        have hmod : (m + n) % keys.length < keys.length := Nat.mod_lt _ hpos
        rw [List.get?_eq_get hmod]
        rfl
      · have hge : keys.length ≤ n := Nat.le_of_not_lt hn
        rw [List.get?_eq_none.mpr (by simpa using hge),
          List.get?_eq_none.mpr (by simp [List.length_rotate]; omega)]
    rw [h1]
    exact List.rotate_perm _ _

/-- C6 witness: on the fresh three-key pool, the fifth call (index 4)
returns `k2` — key `4 mod 3` — and the window of three calls starting at
index 2 returns a permutation of all three keys. -/
theorem C6_round_robin_witness :
    (callSeq km3 0 4).map Prod.fst = some "k2" ∧
    List.Perm
      ((List.range km3.keys.length).map fun j => (callSeq km3 0 (2 + j)).map Prod.fst)
      (km3.keys.map some) := by
  have h := C6_round_robin km3 0 rfl rfl rfl rfl (by decide)
  exact ⟨(h.1 4).trans (by decide), h.2 2⟩

/-- C7: `disable_key` at a non-negative `now` — (i) a provided reset that
converts (`datetime` range) and lies strictly in the future becomes the
key's deadline exactly; (ii) an absent, non-converting, or non-future reset
falls back to `now + cooldown·1000` milliseconds; (iii) other keys'
deadlines are untouched.  The deadline in (i)/(ii) is written over whatever
entry the key had, however late, since the map update is unconditional. -/
theorem C7_disable (km : KMState) (key : String) (r? : Option Int) (now : Int)
    (hnow : 0 ≤ now) :
    (∀ r, r? = some r → now < r → r < 253402300800000 →
      assocGet (disable_key km key r? now).disabled_until key = some r) ∧
    ((r? = none ∨ ∃ r, r? = some r ∧ (r ≤ now ∨ 253402300800000 ≤ r)) →
      assocGet (disable_key km key r? now).disabled_until key =
        some (now + km.cooldown_seconds * 1000)) ∧
    (∀ x, x ≠ key → assocGet (disable_key km key r? now).disabled_until x =
      assocGet km.disabled_until x) := by
  refine ⟨?_, ?_, ?_⟩
  · intro r hr hfut hrange
    subst hr
    unfold disable_key disableDeadline
    dsimp only
    rw [if_pos (show r ≠ 0 from by omega)]
    rw [show fromtimestampMs r = some r from by
      unfold fromtimestampMs; rw [if_pos ⟨by omega, hrange⟩]]
    dsimp only
    rw [if_pos (show r > now from hfut), assocGet_set, if_pos rfl]
  · intro hcase
    have hdl : (disable_key km key r? now).disabled_until =
        assocSet km.disabled_until key (now + km.cooldown_seconds * 1000) := by
      rcases hcase with rfl | ⟨r, rfl, hr⟩
      · rfl
      · unfold disable_key disableDeadline
        dsimp only
        by_cases h0 : r ≠ 0
        · rw [if_pos h0]
          cases hts : fromtimestampMs r with
          | none => rfl
          | some t =>
            dsimp only
            obtain ⟨rfl, _, hlt⟩ := fromtimestampMs_some hts
            rcases hr with hle | hge
            · rw [if_neg (show ¬ t > now by omega)]
            · omega
        · rw [if_neg h0]
    rw [hdl, assocGet_set, if_pos rfl]
  · intro x hx
    unfold disable_key
    dsimp only
    rw [assocGet_set, if_neg hx]

/-- C7 witness: a future in-range reset overwrites `k2`'s existing, later
deadline with exactly the provided instant, and leaves `k1` untouched. -/
theorem C7_disable_witness :
    assocGet (disable_key kmPrev "k2" (some 1700000000000) 5).disabled_until "k2" =
        some 1700000000000 ∧
      assocGet (disable_key kmPrev "k2" (some 1700000000000) 5).disabled_until "k1" =
        assocGet kmPrev.disabled_until "k1" := by
  have h := C7_disable kmPrev "k2" (some 1700000000000) 5 (by decide)
  exact ⟨h.1 1700000000000 rfl (by decide) (by decide), h.2.2 "k1" (by decide)⟩

/-- C9: the detectors report `detected = true` only on bodies whose
`error.message` equals exactly `"Rate limit exceeded: free-models-per-day"`
— (a) the buffered entry point additionally requires a content type
containing `application/json` and implies the body is an object carrying an
`error` object with that exact message; (b) the SSE entry point (when it
returns rather than raises) implies some `data:` line decodes to such an
object; (c) a body whose `error.message` is any other string is never
detected, whatever its `error.code`. -/
theorem C9_exact_message_only :
    (∀ hdrs body rst, check_rate_limit_error hdrs body = (true, rst) →
      hasSub "application/json" ((headerGet hdrs "content-type").getD "") = true ∧
      ∃ fs efs, body = some (.jobj fs) ∧ lookupLast fs "error" = some (.jobj efs) ∧
        lookupLast efs "message" = some (.jstr RATE_LIMIT_ERROR_MESSAGE)) ∧
    (∀ chunk rst, parse_rate_limit_from_sse chunk = .ok (true, rst) →
      ∃ line fs efs, line ∈ splitLinesPy chunk ∧ strStarts "data: " line = true ∧
        jsonParse (strDropChars 6 line) = some (.jobj fs) ∧
        lookupLast fs "error" = some (.jobj efs) ∧
        lookupLast efs "message" = some (.jstr RATE_LIMIT_ERROR_MESSAGE)) ∧
    (∀ hdrs fs efs m, lookupLast fs "error" = some (.jobj efs) →
      lookupLast efs "message" = some (.jstr m) → m ≠ RATE_LIMIT_ERROR_MESSAGE →
      (check_rate_limit_error hdrs (some (.jobj fs))).1 = false) := by
  refine ⟨?_, ?_, ?_⟩
  · intro hdrs body rst h
    simp only [check_rate_limit_error] at h
    by_cases hct : hasSub "application/json" ((headerGet hdrs "content-type").getD "") = true
    case neg => rw [if_neg hct] at h; exact absurd h (by simp)
    case pos =>
    rw [if_pos hct] at h
    refine ⟨hct, ?_⟩
    cases body with
    | none => simp at h
    | some data =>
      dsimp only at h
      rcases h1 : pyContainsStr "error" data with e1 | b1 <;> rw [h1] at h
      · simp at h
      · cases b1 with
        | false => simp at h
        | true =>
          rcases h2 : pyIndexStr data "error" with e2 | err <;> rw [h2] at h
          · simp at h
          · dsimp only at h
            rcases h3 : pyContainsStr "message" err with e3 | b3 <;> rw [h3] at h
            · simp at h
            · cases b3 with
              | false => simp at h
              | true =>
                rcases h4 : pyIndexStr err "message" with e4 | m <;> rw [h4] at h
                · simp at h
                · dsimp only at h
                  by_cases h5 : beqJ m (.jstr RATE_LIMIT_ERROR_MESSAGE) = true
                  · rcases pyIndexStr_ok h2 with ⟨fs, rfl, hl1⟩
                    rcases pyIndexStr_ok h4 with ⟨efs, rfl, hl2⟩
                    exact ⟨fs, efs, rfl, hl1, beqJ_jstr_iff.mp h5 ▸ hl2⟩
                  · simp [h5] at h
  · intro chunk rst h
    exact sseLoop_detected (splitLinesPy chunk) rst h
  · intro hdrs fs efs m herr hmsg hne
    have ha1 := any_key_of_lookupLast herr
    have ha2 := any_key_of_lookupLast hmsg
    unfold check_rate_limit_error
    by_cases hct : hasSub "application/json" ((headerGet hdrs "content-type").getD "") = true
    · simp [hct, pyContainsStr, pyIndexStr, ha1, herr, ha2, hmsg, beqJ, hne]
    · simp [hct]

/-- C9 witness: the buffered direction instantiated at a detected body — an
`error` object carrying exactly the constant message. -/
theorem C9_exact_message_only_witness :
    hasSub "application/json" ((headerGet jsonHeaders "content-type").getD "") = true ∧
      ∃ fs efs, (some (.jobj fs3) : Option JVal) = some (.jobj fs) ∧
        lookupLast fs "error" = some (.jobj efs) ∧
        lookupLast efs "message" = some (.jstr RATE_LIMIT_ERROR_MESSAGE) :=
  C9_exact_message_only.1 jsonHeaders (some (.jobj fs3)) none (by decide)

/-- C8: free-only filtering on a well-formed models listing (an object whose
`data` is an array of model objects with object `pricing`): the entries
kept are exactly those whose six pricing fields are all the string `"0"`,
in order, and the re-serialised list is used only when at least one entry
survives; with no all-zero entry (or an unparsable body) the original
bytes are returned unchanged, and a `filtered` result is never empty. -/
theorem C8_free_only (fs : List (String × JVal)) (l : List JVal)
    (hdata : lookupLast fs "data" = some (.jarr l))
    (hwf : l.all modelWFB = true) :
    ((l.filter freeB).isEmpty = false →
      remove_paid_models (some (.jobj fs)) = .filtered (l.filter freeB)) ∧
    ((l.filter freeB).isEmpty = true →
      remove_paid_models (some (.jobj fs)) = .unchanged) ∧
    remove_paid_models none = .unchanged ∧
    (∀ p, remove_paid_models p ≠ .filtered []) := by
  have hrpm : remove_paid_models (some (.jobj fs)) =
      (if (l.filter freeB).isEmpty then .unchanged else .filtered (l.filter freeB)) := by
    unfold remove_paid_models
    dsimp only
    rw [hdata]
    dsimp only
    rw [filterFree_wf l hwf]
  refine ⟨?_, ?_, rfl, remove_paid_models_ne_empty⟩
  · intro hne
    rw [hrpm, hne, if_neg Bool.false_ne_true]
  · intro he
    rw [hrpm, he, if_pos rfl]

/-- C8 witness: a listing with one all-zero entry and one paid entry is
filtered down to exactly the all-zero entry. -/
theorem C8_free_only_witness :
    remove_paid_models (some (.jobj modelsFs)) = .filtered [mFree] :=
  (C8_free_only modelsFs [mFree, mPaid] rfl (by decide)).1 (by decide)

/-- C10: on the httpx path, a body longer than 4000 characters or the empty
`api_key` used for public endpoints makes `_check_httpx_err` return before
the detector runs: whatever detector `det` is plugged in, the key-pool
state comes back unchanged and no detector invocation happens. -/
theorem C10_guard_skips (det : String → Bool × Option Int) (body : String)
    (api_key : String) (km : KMState) (now : Int)
    (h : body.length > 4000 ∨ api_key = "") :
    check_httpx_err det body api_key km now = (km, none) := by
  unfold check_httpx_err checkHttpxErrArg
  rw [if_pos h]

/-- C10 witness: the guard fires for an empty key and a small body. -/
theorem C10_guard_skips_witness :
    check_httpx_err (fun _ => (true, some 5)) "data: x" "" km3 0 = (km3, none) :=
  C10_guard_skips (fun _ => (true, some 5)) "data: x" "" km3 0 (Or.inr rfl)

end ORProxy
